import Mathlib

/-!
Verification of the MCP Metadata Setup Wizard (`setup.mjs`).

Strings are modelled as `List Char`. The filesystem is modelled as an
association list from path to file content in which the most recent write
shadows older entries. Each definition below is a direct translation of the
corresponding JavaScript function or constant in `setup.mjs`.
-/

/-- Line terminators of the JavaScript regular-expression `.` metacharacter:
`.` matches any character except LF, CR, LINE SEPARATOR and PARAGRAPH
SEPARATOR. -/
def isLineTerminator (c : Char) : Bool :=
  c == '\n' || c == '\r' || c == '\u2028' || c == '\u2029'

/-- Character class `[a-zA-Z]` of the validation regexes in `setup.mjs`. -/
def isRegexLetter (c : Char) : Bool :=
  decide (('a' ≤ c ∧ c ≤ 'z') ∨ ('A' ≤ c ∧ c ≤ 'Z'))

/-- Character class `[a-zA-Z0-9_]` of the validation regexes in `setup.mjs`. -/
def isRegexWordChar (c : Char) : Bool :=
  isRegexLetter c || decide ('0' ≤ c ∧ c ≤ '9') || decide (c = '_')

/-- The test of the anchored regex `^[a-zA-Z][a-zA-Z0-9_]*$` used by the
`MCP_NAME` validator (`VARIABLES[0].validate`) and, behind the empty-string
alternative, by the `NAMESPACE` validator (`VARIABLES[3].validate`). -/
def identifierValidate : List Char → Bool
  | [] => false
  | c :: cs => isRegexLetter c && cs.all isRegexWordChar

/-- The `.+` part of the unanchored-on-the-right regex `^https?:\/\/.+` of
the URL validators: at least one character, the first matched one being any
character except a line terminator. -/
def matchDotPlus : List Char → Bool
  | [] => false
  | c :: _ => !(isLineTerminator c)

/-- The test of the regex `^https?:\/\/.+` used by the `MCP_SERVER_URL`
validator (`VARIABLES[1].validate`) and the `AUTH_PROVIDER_URL` validator
(`VARIABLES[2].validate`): the optional `s?` gives exactly two ways to
match from position 0. -/
def urlValidate (s : List Char) : Bool :=
  ("http://".data.isPrefixOf s && matchDotPlus (s.drop 7)) ||
  ("https://".data.isPrefixOf s && matchDotPlus (s.drop 8))

/-- One entry of the `VARIABLES` catalog of `setup.mjs` (prompt text and
error text are omitted: they are display only). -/
structure VariableDef where
  key : List Char
  validate : List Char → Bool
  optional : Bool

/-- `VARIABLES[0]` of `setup.mjs`. -/
def mcpNameVar : VariableDef :=
  ⟨"MCP_NAME".data, identifierValidate, false⟩

/-- `VARIABLES[1]` of `setup.mjs`. -/
def mcpServerUrlVar : VariableDef :=
  ⟨"MCP_SERVER_URL".data, urlValidate, false⟩

/-- `VARIABLES[2]` of `setup.mjs`. -/
def authProviderUrlVar : VariableDef :=
  ⟨"AUTH_PROVIDER_URL".data, urlValidate, false⟩

/-- `VARIABLES[3]` of `setup.mjs`: `val === '' || regex.test(val)`. -/
def namespaceVar : VariableDef :=
  ⟨"NAMESPACE".data, fun s => s.isEmpty || identifierValidate s, true⟩

/-- The `VARIABLES` list of `setup.mjs`, in source order. -/
def VARIABLES : List VariableDef :=
  [mcpNameVar, mcpServerUrlVar, authProviderUrlVar, namespaceVar]

/-- The constant `TEMPLATE_NAME` of `setup.mjs`. -/
def TEMPLATE_NAME : List Char := "template".data

/-- One entry of the `FILES` list of `setup.mjs`. -/
structure FileRule where
  dir : List Char
  oldName : List Char
  newName : List Char → List Char

/-- `FILES[0]` of `setup.mjs`. -/
def externalCredentialsRule : FileRule :=
  ⟨"externalCredentials".data,
   TEMPLATE_NAME ++ ".externalCredential-meta.xml".data,
   fun name => name ++ ".externalCredential-meta.xml".data⟩

/-- `FILES[1]` of `setup.mjs`. -/
def externalServiceRegistrationsRule : FileRule :=
  ⟨"externalServiceRegistrations".data,
   TEMPLATE_NAME ++ ".externalServiceRegistration-meta.xml".data,
   fun name => name ++ ".externalServiceRegistration-meta.xml".data⟩

/-- `FILES[2]` of `setup.mjs`. -/
def namedCredentialsRule : FileRule :=
  ⟨"namedCredentials".data,
   TEMPLATE_NAME ++ ".namedCredential-meta.xml".data,
   fun name => name ++ ".namedCredential-meta.xml".data⟩

/-- `FILES[3]` of `setup.mjs`. -/
def permissionSetsRule : FileRule :=
  ⟨"permissionsets".data,
   TEMPLATE_NAME ++ "_Perm_Set.permissionset-meta.xml".data,
   fun name => name ++ "_Perm_Set.permissionset-meta.xml".data⟩

/-- The `FILES` list of `setup.mjs`, in source order. -/
def FILES : List FileRule :=
  [externalCredentialsRule, externalServiceRegistrationsRule,
   namedCredentialsRule, permissionSetsRule]

/-- Join a list of path segments (or of any strings) with a separator, as
`path.join` does for slash and as `Array.prototype.join` does in general. -/
def joinWith (sep : List Char) : List (List Char) → List Char
  | [] => []
  | [x] => x
  | x :: y :: rest => x ++ sep ++ joinWith sep (y :: rest)

/-- The constant `FORCE_APP_DIR = join(__dirname, 'force-app', 'main',
'default')` of `setup.mjs`, parametric in `__dirname`. -/
def FORCE_APP_DIR (dirname : List Char) : List Char :=
  joinWith "/".data [dirname, "force-app".data, "main".data, "default".data]

/-- The source path `join(FORCE_APP_DIR, file.dir, file.oldName)` computed by
`main` for a file rule. -/
def templatePath (dirname : List Char) (rule : FileRule) : List Char :=
  joinWith "/".data [FORCE_APP_DIR dirname, rule.dir, rule.oldName]

/-- The destination path `join(FORCE_APP_DIR, file.dir, file.newName(name))`
computed by `main` and by `instanceExists` for a file rule. -/
def destPath (dirname : List Char) (rule : FileRule) (name : List Char) : List Char :=
  joinWith "/".data [FORCE_APP_DIR dirname, rule.dir, rule.newName name]

/-- Filesystem model: an association list from file path to file content.
A write prepends an entry, shadowing any older entry for the same path. -/
def FS : Type := List (List Char × List Char)

/-- Read the entry for a key: the first (most recent) binding wins. Models
`readFileSync`/`existsSync` on the filesystem association list. -/
def lookupFirst : List (List Char × List Char) → List Char → Option (List Char)
  | [], _ => none
  | (q, c) :: rest, p => if p = q then some c else lookupFirst rest p

/-- GetSubstitution of ECMA-262, specialised to a string-pattern search as
`String.prototype.replaceAll` uses it: the capture list is empty and named
captures are absent, so the recognised escapes in the replacement template
are dollar-dollar (a literal dollar), dollar-ampersand (the matched string),
dollar-backquote (the part of the subject before the match) and
dollar-apostrophe (the part of the subject after the match); every other
dollar, including dollar-digit with no captures, stays literal. Character
code 96 is the backquote, 39 the apostrophe. `matched` is the matched
substring (the search string itself), `str` the whole subject string and
`position` the match position in it. -/
def getSubstitution (matched str : List Char) (position : Nat) : List Char → List Char
  | [] => []
  | c :: rest =>
    if c = '$' then
      match rest with
      | d :: rest2 =>
        if d = '$' then '$' :: getSubstitution matched str position rest2
        else if d = '&' then matched ++ getSubstitution matched str position rest2
        else if d = Char.ofNat 96 then
          str.take position ++ getSubstitution matched str position rest2
        else if d = Char.ofNat 39 then
          str.drop (position + matched.length)
            ++ getSubstitution matched str position rest2
        else c :: d :: getSubstitution matched str position rest2
      | [] => [c]
    else c :: getSubstitution matched str position rest

/-- Fuelled engine of JavaScript `String.prototype.replaceAll` with a string
pattern: scan left to right, replace each non-overlapping occurrence of
`search` by `GetSubstitution` of the replacement template at the match
position, and resume after the match. An empty `search` matches at every
position and after each match the scan advances one character. `str` is the
whole subject string and `position` the index of the current tail in it;
the fuel only forces termination, `jsReplaceAll` supplies enough of it. -/
def replaceAllFuel (search repl str : List Char) : Nat → Nat → List Char → List Char
  | 0, _, s => s
  | _ + 1, position, [] =>
    if search.isPrefixOf [] then getSubstitution search str position repl else []
  | fuel + 1, position, c :: cs =>
    if search.isPrefixOf (c :: cs) then
      if search.isEmpty then
        getSubstitution search str position repl
          ++ c :: replaceAllFuel search repl str fuel (position + 1) cs
      else
        getSubstitution search str position repl
          ++ replaceAllFuel search repl str fuel (position + search.length)
              ((c :: cs).drop search.length)
    else c :: replaceAllFuel search repl str fuel (position + 1) cs

/-- JavaScript `s.replaceAll(search, repl)` for string patterns, including
the GetSubstitution treatment of dollar escapes in `repl`. -/
def jsReplaceAll (s search repl : List Char) : List Char :=
  replaceAllFuel search repl s (s.length + 1) 0 s

/-- Fuelled left-to-right split of a string at the non-overlapping
occurrences of a nonempty `search`, used to state what `jsReplaceAll`
replaces. The input is the concatenation of the returned segments
interleaved with `search`. -/
def splitFuel (search : List Char) : Nat → List Char → List (List Char)
  | 0, s => [s]
  | _ + 1, [] => [[]]
  | fuel + 1, c :: cs =>
    if search.isPrefixOf (c :: cs) then
      [] :: splitFuel search fuel ((c :: cs).drop search.length)
    else
      match splitFuel search fuel cs with
      | [] => [[c]]
      | seg :: rest => (c :: seg) :: rest

/-- Split at the non-overlapping occurrences of `search`, from the left. -/
def splitOnSeq (search s : List Char) : List (List Char) :=
  splitFuel search (s.length + 1) s

/-- The function `applyReplacements` of `setup.mjs`: fold
`result.replaceAll(search, replace)` over the `(search, replace)` pairs in
the order of `Object.entries`, which is the insertion order of the map. -/
def applyReplacements (content : List Char) (replacements : List (List Char × List Char)) : List Char :=
  replacements.foldl (fun result p => jsReplaceAll result p.1 p.2) content

/-- The function `copyFromTemplate` of `setup.mjs`: read the template, apply
the replacements, write the result at the new path. `none` when the template
path cannot be read (in the driver, `existsSync` guards the call). -/
def copyFromTemplate (fs : FS) (tPath nPath : List Char) (replacements : List (List Char × List Char)) : Option FS :=
  match lookupFirst fs tPath with
  | none => none
  | some content => some ((nPath, applyReplacements content replacements) :: fs)

/-- The function `instanceExists` of `setup.mjs`: true when any of the four
destination files for this `MCP_NAME` exists. -/
def instanceExists (dirname : List Char) (fs : FS) (mcpName : List Char) : Bool :=
  FILES.any fun rule => (lookupFirst fs (destPath dirname rule mcpName)).isSome

/-- One entry of a directory listing, as produced by
`readdirSync(dir, withFileTypes)`: a name and whether the entry is a
regular file. -/
structure DirEntry where
  name : List Char
  isFile : Bool

/-- The test and capture of the regex `^(.+)\.externalCredential-meta\.xml$`
of `getExistingInstances`: the greedy `(.+)` forces the name to be a
nonempty line-terminator-free base followed by the literal suffix, and
captures the base. -/
def credSuffix : List Char := ".externalCredential-meta.xml".data

def matchCredential (name : List Char) : Option (List Char) :=
  if credSuffix.length < name.length
      ∧ name.drop (name.length - credSuffix.length) = credSuffix
      ∧ (name.take (name.length - credSuffix.length)).all (fun c => !isLineTerminator c) = true
  then some (name.take (name.length - credSuffix.length))
  else none

/-- JavaScript `Set.prototype.add` on a list kept in insertion order. -/
def setInsert (l : List (List Char)) (a : List Char) : List (List Char) :=
  if a ∈ l then l else l ++ [a]

/-- Code-unit lexicographic order on strings, the order used by the default
comparator of `Array.prototype.sort`. -/
def lexLe : List Char → List Char → Bool
  | [], _ => true
  | _ :: _, [] => false
  | a :: as, b :: bs =>
    if a.toNat < b.toNat then true
    else if b.toNat < a.toNat then false
    else lexLe as bs

/-- Propositional form of `lexLe`. -/
def lexLeP (a b : List Char) : Prop := lexLe a b = true

instance : DecidableRel lexLeP :=
  fun a b => inferInstanceAs (Decidable (lexLe a b = true))

/-- The function `getExistingInstances` of `setup.mjs`. Its one directory
read is abstracted as the input: `none` when the `externalCredentials`
directory is absent (`existsSync` false), otherwise the directory listing.
Kept file base names other than `TEMPLATE_NAME` are collected into a `Set`
in listing order and returned sorted. -/
def getExistingInstances (dir : Option (List DirEntry)) : List (List Char) :=
  match dir with
  | none => []
  | some entries =>
    let names := (entries.filterMap fun entry =>
      if entry.isFile then
        match matchCredential entry.name with
        | some base => if base ≠ TEMPLATE_NAME then some base else none
        | none => none
      else none).foldl setInsert []
    List.insertionSort lexLeP names

/-- Collected values of one wizard run, one per `VARIABLES` entry. -/
structure CollectedValues where
  MCP_NAME : List Char
  MCP_SERVER_URL : List Char
  AUTH_PROVIDER_URL : List Char
  NAMESPACE : List Char

/-- The replacements map built by `main` of `setup.mjs`, in insertion order:
`namespacePrefix` is `values.NAMESPACE + '__'` when `values.NAMESPACE` is
truthy (a nonempty string) and `''` otherwise. -/
def buildReplacements (values : CollectedValues) : List (List Char × List Char) :=
  [("MCP_NAME".data, values.MCP_NAME),
   ("MCP_SERVER_URL".data, values.MCP_SERVER_URL),
   ("AUTH_PROVIDER_URL".data, values.AUTH_PROVIDER_URL),
   ("NAMESPACE__".data,
     if values.NAMESPACE.isEmpty then [] else values.NAMESPACE ++ "__".data)]

/-- JavaScript `String.prototype.toLowerCase`, used on the two confirmation
answers (on which only the ASCII mapping is ever observable). -/
def jsToLowerCase (s : List Char) : List Char := s.map Char.toLower

/-- Accumulator of the file-rule loop of `main`: the filesystem, the
template names reported missing, and the destination names reported
created, in loop order. -/
structure RenderOutcome where
  fs : FS
  errors : List (List Char)
  successes : List (List Char)

/-- One iteration of the file-rule loop of `main`: if the template does not
exist, log the error and continue; otherwise copy from the template and log
the success. -/
def renderStep (dirname name : List Char) (replacements : List (List Char × List Char))
    (acc : RenderOutcome) (rule : FileRule) : RenderOutcome :=
  match copyFromTemplate acc.fs (templatePath dirname rule) (destPath dirname rule name) replacements with
  | none => ⟨acc.fs, acc.errors ++ [rule.oldName], acc.successes⟩
  | some fs' => ⟨fs', acc.errors, acc.successes ++ [rule.newName name]⟩

/-- The file-rule loop of `main`, over the four rules in source order. -/
def renderAll (dirname : List Char) (fs : FS) (replacements : List (List Char × List Char))
    (name : List Char) : RenderOutcome :=
  FILES.foldl (renderStep dirname name replacements) ⟨fs, [], []⟩

/-- Observable outcome of one driver run from the review confirmation on. -/
structure RunResult where
  fs : FS
  exitCode : Nat
  cancelled : Bool
  askedOverwrite : Bool
  ruleErrors : List (List Char)
  ruleSuccesses : List (List Char)
  completed : Bool

/-- The tail of `main` of `setup.mjs`, from the review confirmation to the
end of the run: any review answer whose lowercasing differs from `y` exits 0
having written nothing; otherwise, when any destination file exists the
overwrite confirmation is consulted and any answer other than `y`/`Y` again
exits 0 having written nothing; otherwise the four file rules run and the
completion banner is reached (exit code 0 on the normal path). -/
def runSetup (dirname : List Char) (fs : FS) (values : CollectedValues)
    (confirmAnswer overwriteAnswer : List Char) : RunResult :=
  if jsToLowerCase confirmAnswer ≠ "y".data then
    ⟨fs, 0, true, false, [], [], false⟩
  else if instanceExists dirname fs values.MCP_NAME then
    if jsToLowerCase overwriteAnswer ≠ "y".data then
      ⟨fs, 0, true, true, [], [], false⟩
    else
      let r := renderAll dirname fs (buildReplacements values) values.MCP_NAME
      ⟨r.fs, 0, false, true, r.errors, r.successes, true⟩
  else
    let r := renderAll dirname fs (buildReplacements values) values.MCP_NAME
    ⟨r.fs, 0, false, false, r.errors, r.successes, true⟩

lemma joinWith_cons_cons (sep : List Char) (c : Char) (seg : List Char) (rest : List (List Char)) :
    joinWith sep ((c :: seg) :: rest) = c :: joinWith sep (seg :: rest) := by
  cases rest with
  | nil => rfl
  | cons r rs => simp [joinWith]

lemma getSubstitution_no_dollar (matched str : List Char) (position : Nat) :
    ∀ repl : List Char, '$' ∉ repl → getSubstitution matched str position repl = repl := by
  intro repl
  induction repl with
  | nil => intro h; rfl
  | cons c rest ih =>
    intro h
    have hc : c ≠ '$' := fun hce => h (by rw [hce]; exact List.mem_cons_self _ _)
    have hr : '$' ∉ rest := fun hm => h (List.mem_cons_of_mem _ hm)
    cases rest with
    | nil => simp [getSubstitution, hc]
    | cons d rest2 =>
      calc getSubstitution matched str position (c :: d :: rest2)
          = c :: getSubstitution matched str position (d :: rest2) := by
            simp only [getSubstitution]
            rw [if_neg hc]
        _ = c :: (d :: rest2) := by rw [ih hr]

lemma replaceCore (search repl str : List Char) (hne : search ≠ []) (hnd : '$' ∉ repl) :
    ∀ fuel (position : Nat) s, s.length < fuel →
      (∃ seg rest, splitFuel search fuel s = seg :: rest ∧ seg <+: s) ∧
      joinWith search (splitFuel search fuel s) = s ∧
      replaceAllFuel search repl str fuel position s
        = joinWith repl (splitFuel search fuel s) ∧
      ∀ seg ∈ splitFuel search fuel s, ¬ search <:+: seg := by
  have hg : ∀ position : Nat, getSubstitution search str position repl = repl :=
    fun position => getSubstitution_no_dollar search str position repl hnd
  intro fuel
  induction fuel with
  | zero => exact fun _ s h => absurd h (Nat.not_lt_zero _)
  | succ f ih =>
    intro position s hs
    cases s with
    | nil =>
      have hp : search.isPrefixOf ([] : List Char) = false := by
        cases search with
        | nil => exact absurd rfl hne
        | cons a as => rfl
      refine ⟨⟨[], [], rfl, List.nil_prefix⟩, rfl, ?_, ?_⟩
      · simp [replaceAllFuel, hp, joinWith]
      · intro seg hseg hinf
        have hseg' : seg = [] := by simpa [splitFuel] using hseg
        subst hseg'
        exact hne (by simpa using hinf)
    | cons c cs =>
      cases hp : search.isPrefixOf (c :: cs) with
      | true =>
        have hslen : 1 ≤ search.length := List.length_pos.mpr hne
        have hlen : ((c :: cs).drop search.length).length < f := by
          simp only [List.length_drop, List.length_cons]
          simp only [List.length_cons] at hs
          omega
        obtain ⟨⟨seg, rest, heq, hpre⟩, hjoin, hrepl, hsegs⟩ :=
          ih (position + search.length) _ hlen
        have hsplit : splitFuel search (f + 1) (c :: cs)
            = [] :: splitFuel search f ((c :: cs).drop search.length) := by
          simp [splitFuel, hp]
        have hemp : search.isEmpty = false := by
          cases search with
          | nil => exact absurd rfl hne
          | cons a as => rfl
        have hdecomp : search ++ (c :: cs).drop search.length = c :: cs := by
          obtain ⟨t, ht⟩ := List.isPrefixOf_iff_prefix.mp hp
          rw [← ht, List.drop_left]
        refine ⟨⟨[], _, hsplit, List.nil_prefix⟩, ?_, ?_, ?_⟩
        · rw [hsplit, heq]
          show [] ++ search ++ joinWith search (seg :: rest) = c :: cs
          rw [List.nil_append, ← heq, hjoin]
          exact hdecomp
        · have hstep : replaceAllFuel search repl str (f + 1) position (c :: cs)
              = repl ++ replaceAllFuel search repl str f (position + search.length)
                  ((c :: cs).drop search.length) := by
            simp [replaceAllFuel, hp, hemp, hg]
          rw [hstep, hrepl, hsplit, heq]
          show repl ++ joinWith repl (seg :: rest) = [] ++ repl ++ joinWith repl (seg :: rest)
          rw [List.nil_append]
        · rw [hsplit]
          intro x hx
          rcases List.mem_cons.mp hx with h | h
          · subst h
            intro hinf
            exact hne (by simpa using hinf)
          · exact hsegs x h
      | false =>
        have hlen : cs.length < f := by
          simp only [List.length_cons] at hs
          omega
        obtain ⟨⟨seg, rest, heq, hpre⟩, hjoin, hrepl, hsegs⟩ := ih (position + 1) cs hlen
        have hsplit : splitFuel search (f + 1) (c :: cs) = (c :: seg) :: rest := by
          simp only [splitFuel, hp, Bool.false_eq_true, if_false]
          rw [heq]
        have hpre' : c :: seg <+: c :: cs := List.cons_prefix_cons.mpr ⟨rfl, hpre⟩
        refine ⟨⟨c :: seg, rest, hsplit, hpre'⟩, ?_, ?_, ?_⟩
        · rw [hsplit, joinWith_cons_cons, ← heq, hjoin]
        · have hstep : replaceAllFuel search repl str (f + 1) position (c :: cs)
              = c :: replaceAllFuel search repl str f (position + 1) cs := by
            simp [replaceAllFuel, hp]
          rw [hstep, hrepl, hsplit, joinWith_cons_cons, heq]
        · rw [hsplit]
          intro x hx
          rcases List.mem_cons.mp hx with h | h
          · subst h
            intro hinf
            rcases List.infix_cons_iff.mp hinf with hpf | hinf2
            · have habs : search <+: c :: cs := hpf.trans hpre'
              have : search.isPrefixOf (c :: cs) = true := List.isPrefixOf_iff_prefix.mpr habs
              rw [hp] at this
              exact Bool.false_ne_true this
            · exact hsegs seg (by rw [heq]; exact List.mem_cons_self _ _) hinf2
          · exact hsegs x (by rw [heq]; exact List.mem_cons_of_mem _ h)

/-- C1 counterexample: the renderer does not insert every value verbatim.
The value `https://a$&b` passes the URL validator, so it can reach the
replacements map, and `replaceAll` passes it through GetSubstitution, which
expands the dollar-ampersand to the matched token: the output contains
`https://aMCP_SERVER_URLb`, not the value verbatim. -/
theorem applyReplacements_dollar_counterexample :
    mcpServerUrlVar.validate "https://a$&b".data = true ∧
    applyReplacements "URL: MCP_SERVER_URL".data
        [("MCP_SERVER_URL".data, "https://a$&b".data)]
      = "URL: https://aMCP_SERVER_URLb".data ∧
    applyReplacements "URL: MCP_SERVER_URL".data
        [("MCP_SERVER_URL".data, "https://a$&b".data)]
      ≠ "URL: https://a$&b".data := by
  exact ⟨by decide, by decide, by decide⟩

/-- C1 amended: substitution property of the renderer for dollar-free
values. For each pair whose value contains no dollar sign, GetSubstitution
is the identity and `jsReplaceAll` replaces every literal occurrence of the
token with the value verbatim: the content is the occurrence-free segments
interleaved with the token, and the output is the same segments interleaved
with the value; `applyReplacements` folds this over the pairs in order, and
on the spec template content with its dollar-free replacements it yields
exactly the stated output. -/
theorem applyReplacements_substitution :
    (∀ content search repl, search ≠ [] → '$' ∉ repl →
      joinWith search (splitOnSeq search content) = content ∧
      jsReplaceAll content search repl = joinWith repl (splitOnSeq search content) ∧
      ∀ seg ∈ splitOnSeq search content, ¬ search <:+: seg) ∧
    applyReplacements "Name: MCP_NAME, URL: MCP_SERVER_URL".data
      [("MCP_NAME".data, "weather_api".data), ("MCP_SERVER_URL".data, "https://x".data)]
      = "Name: weather_api, URL: https://x".data := by
  refine ⟨?_, by decide⟩
  intro content search repl hne hnd
  obtain ⟨hex, hjoin, hrepl, hsegs⟩ :=
    replaceCore search repl content hne hnd (content.length + 1) 0 content
      (Nat.lt_succ_self _)
  exact ⟨hjoin, hrepl, hsegs⟩

theorem applyReplacements_substitution_witness :
    jsReplaceAll "aXbXc".data "X".data "--".data
      = joinWith "--".data (splitOnSeq "X".data "aXbXc".data) ∧
    joinWith "X".data (splitOnSeq "X".data "aXbXc".data) = "aXbXc".data := by
  have h := applyReplacements_substitution.1 "aXbXc".data "X".data "--".data
    (by decide) (by decide)
  exact ⟨h.2.1, h.1⟩

/-- C4: the identifier-style validator accepts exactly the strings made of a
letter followed by letters, digits and underscores, and the namespace
validator accepts exactly the empty string plus those. -/
theorem identifier_validation_characterization :
    (∀ s : List Char, mcpNameVar.validate s = true ↔
      ∃ c cs, s = c :: cs ∧
        (('a' ≤ c ∧ c ≤ 'z') ∨ ('A' ≤ c ∧ c ≤ 'Z')) ∧
        ∀ d ∈ cs, ('a' ≤ d ∧ d ≤ 'z') ∨ ('A' ≤ d ∧ d ≤ 'Z') ∨
          ('0' ≤ d ∧ d ≤ '9') ∨ d = '_') ∧
    (∀ s : List Char, namespaceVar.validate s = true ↔
      (s = [] ∨ mcpNameVar.validate s = true)) ∧
    mcpNameVar.validate "weather_api".data = true ∧
    mcpNameVar.validate "3weather".data = false ∧
    mcpNameVar.validate "".data = false ∧
    namespaceVar.validate "".data = true ∧
    namespaceVar.validate "mycompany".data = true ∧
    namespaceVar.validate "my-company".data = false := by
  refine ⟨?_, ?_, by decide, by decide, by decide, by decide, by decide, by decide⟩
  · intro s
    cases s with
    | nil => simp [mcpNameVar, identifierValidate]
    | cons c cs =>
      simp only [mcpNameVar, identifierValidate, Bool.and_eq_true, List.all_eq_true,
        isRegexLetter, isRegexWordChar, Bool.or_eq_true, decide_eq_true_eq,
        List.cons.injEq]
      constructor
      · rintro ⟨h1, h2⟩
        exact ⟨c, cs, ⟨rfl, rfl⟩, h1, fun d hd => by have := h2 d hd; tauto⟩
      · rintro ⟨c', cs', ⟨rfl, rfl⟩, h1, h2⟩
        exact ⟨h1, fun d hd => by have := h2 d hd; tauto⟩
  · intro s
    cases s with
    | nil => simp [namespaceVar, mcpNameVar]
    | cons c cs => simp [namespaceVar, mcpNameVar, List.isEmpty]

/-- C5 counterexample: the string made of `https://` followed by a newline
starts with `https://` and has a character after that prefix, yet the URL
validator rejects it, so acceptance is not equivalent to having at least one
trailing character. -/
theorem url_validation_newline_counterexample :
    "https://".data <+: "https://\n".data ∧
    "https://".data.length < "https://\n".data.length ∧
    mcpServerUrlVar.validate "https://\n".data = false := by
  refine ⟨⟨['\n'], by decide⟩, by decide, by decide⟩

/-- C5 amended: the URL validators accept a string exactly when it starts
with `http://` or `https://` and the character immediately after that prefix
exists and is not a line terminator; both URL variables use the same
predicate, and the spec examples evaluate as stated. -/
theorem url_validation_characterization :
    (∀ s : List Char, mcpServerUrlVar.validate s = true ↔
      (("http://".data <+: s ∧
          ∃ c rest, s.drop 7 = c :: rest ∧ isLineTerminator c = false) ∨
       ("https://".data <+: s ∧
          ∃ c rest, s.drop 8 = c :: rest ∧ isLineTerminator c = false))) ∧
    authProviderUrlVar.validate = mcpServerUrlVar.validate ∧
    mcpServerUrlVar.validate "https://mcp.example.com/api".data = true ∧
    mcpServerUrlVar.validate "ftp://x".data = false ∧
    mcpServerUrlVar.validate "https://".data = false := by
  refine ⟨?_, rfl, by decide, by decide, by decide⟩
  intro s
  simp only [mcpServerUrlVar, urlValidate, Bool.or_eq_true, Bool.and_eq_true,
    List.isPrefixOf_iff_prefix]
  constructor
  · rintro (⟨h1, h2⟩ | ⟨h1, h2⟩)
    · refine Or.inl ⟨h1, ?_⟩
      cases hd : s.drop 7 with
      | nil => rw [hd] at h2; exact absurd h2 (by simp [matchDotPlus])
      | cons c rest =>
        rw [hd] at h2
        exact ⟨c, rest, rfl, by simpa [matchDotPlus] using h2⟩
    · refine Or.inr ⟨h1, ?_⟩
      cases hd : s.drop 8 with
      | nil => rw [hd] at h2; exact absurd h2 (by simp [matchDotPlus])
      | cons c rest =>
        rw [hd] at h2
        exact ⟨c, rest, rfl, by simpa [matchDotPlus] using h2⟩
  · rintro (⟨h1, c, rest, hd, hc⟩ | ⟨h1, c, rest, hd, hc⟩)
    · exact Or.inl ⟨h1, by simp [hd, matchDotPlus, hc]⟩
    · exact Or.inr ⟨h1, by simp [hd, matchDotPlus, hc]⟩

/-- C2 counterexample: with namespace `acme` and other collected values
distinct from it, no entry of the replacements map has the namespace value
as its replacement, so the map does not map the namespace value to itself. -/
theorem replacements_no_namespace_self_entry :
    ¬ ∃ p ∈ buildReplacements
        ⟨"a".data, "b".data, "c".data, "acme".data⟩, p.2 = "acme".data := by
  decide

/-- C2 amended: the replacements map has exactly the four keys `MCP_NAME`,
`MCP_SERVER_URL`, `AUTH_PROVIDER_URL` and `NAMESPACE__`; the first three map
to the collected values, `NAMESPACE__` maps to the empty string when the
namespace is empty and to the namespace followed by `__` otherwise, and the
bare token `NAMESPACE` has no entry of its own. -/
theorem buildReplacements_characterization :
    (∀ values : CollectedValues,
      (buildReplacements values).map Prod.fst =
        ["MCP_NAME".data, "MCP_SERVER_URL".data, "AUTH_PROVIDER_URL".data,
         "NAMESPACE__".data] ∧
      lookupFirst (buildReplacements values) "MCP_NAME".data = some values.MCP_NAME ∧
      lookupFirst (buildReplacements values) "MCP_SERVER_URL".data = some values.MCP_SERVER_URL ∧
      lookupFirst (buildReplacements values) "AUTH_PROVIDER_URL".data = some values.AUTH_PROVIDER_URL ∧
      lookupFirst (buildReplacements values) "NAMESPACE__".data =
        some (if values.NAMESPACE.isEmpty then [] else values.NAMESPACE ++ "__".data) ∧
      lookupFirst (buildReplacements values) "NAMESPACE".data = none) ∧
    lookupFirst (buildReplacements ⟨"x".data, "u".data, "v".data, []⟩)
      "NAMESPACE__".data = some [] ∧
    lookupFirst (buildReplacements ⟨"x".data, "u".data, "v".data, "acme".data⟩)
      "NAMESPACE__".data = some "acme__".data := by
  refine ⟨?_, by decide, by decide⟩
  intro values
  refine ⟨rfl, ?_, ?_, ?_, ?_, ?_⟩ <;>
    simp [buildReplacements, lookupFirst, String.data]

lemma lexLe_cons_iff (x y : Char) (xs ys : List Char) :
    lexLe (x :: xs) (y :: ys) = true ↔
      x.toNat < y.toNat ∨ (x.toNat = y.toNat ∧ lexLe xs ys = true) := by
  simp only [lexLe]
  by_cases h1 : x.toNat < y.toNat
  · rw [if_pos h1]; simp [h1]
  · by_cases h2 : y.toNat < x.toNat
    · rw [if_neg h1, if_pos h2]
      constructor
      · intro hfalse; exact absurd hfalse Bool.false_ne_true
      · intro hcase
        exfalso
        rcases hcase with hc | ⟨hc, _⟩
        · exact h1 hc
        · omega
    · rw [if_neg h1, if_neg h2]
      have he : x.toNat = y.toNat := by omega
      constructor
      · intro hr; exact Or.inr ⟨he, hr⟩
      · rintro (hc | ⟨_, hr⟩)
        · exact absurd hc h1
        · exact hr

lemma lexLe_trans : ∀ a b c : List Char,
    lexLe a b = true → lexLe b c = true → lexLe a c = true := by
  intro a
  induction a with
  | nil => intro b c h1 h2; rfl
  | cons x xs ih =>
    intro b c h1 h2
    cases b with
    | nil => simp [lexLe] at h1
    | cons y ys =>
      cases c with
      | nil => simp [lexLe] at h2
      | cons z zs =>
        rw [lexLe_cons_iff] at h1 h2 ⊢
        rcases h1 with h1 | ⟨h1e, h1r⟩ <;> rcases h2 with h2 | ⟨h2e, h2r⟩
        · exact Or.inl (by omega)
        · exact Or.inl (by omega)
        · exact Or.inl (by omega)
        · exact Or.inr ⟨by omega, ih ys zs h1r h2r⟩

lemma lexLe_total : ∀ a b : List Char, lexLe a b = true ∨ lexLe b a = true := by
  intro a
  induction a with
  | nil => intro b; exact Or.inl rfl
  | cons x xs ih =>
    intro b
    cases b with
    | nil => exact Or.inr rfl
    | cons y ys =>
      rw [lexLe_cons_iff, lexLe_cons_iff]
      rcases Nat.lt_trichotomy x.toNat y.toNat with h | h | h
      · exact Or.inl (Or.inl h)
      · rcases ih ys with h2 | h2
        · exact Or.inl (Or.inr ⟨h, h2⟩)
        · exact Or.inr (Or.inr ⟨h.symm, h2⟩)
      · exact Or.inr (Or.inl h)

instance : IsTrans (List Char) lexLeP := ⟨lexLe_trans⟩

instance : IsTotal (List Char) lexLeP := ⟨lexLe_total⟩

lemma mem_foldl_setInsert (cs : List (List Char)) : ∀ (init : List (List Char)) (a : List Char),
    a ∈ cs.foldl setInsert init ↔ a ∈ init ∨ a ∈ cs := by
  induction cs with
  | nil => simp
  | cons c cs ih =>
    intro init a
    simp only [List.foldl_cons, ih, setInsert]
    by_cases h : c ∈ init
    · rw [if_pos h]
      simp only [List.mem_cons]
      constructor
      · tauto
      · rintro (ha | rfl | ha)
        · exact Or.inl ha
        · exact Or.inl h
        · exact Or.inr ha
    · rw [if_neg h]
      simp only [List.mem_append, List.mem_singleton, List.mem_cons]
      tauto

lemma nodup_foldl_setInsert (cs : List (List Char)) : ∀ init : List (List Char),
    init.Nodup → (cs.foldl setInsert init).Nodup := by
  induction cs with
  | nil => exact fun _ h => h
  | cons c cs ih =>
    intro init h
    apply ih
    unfold setInsert
    by_cases hc : c ∈ init
    · rwa [if_pos hc]
    · rw [if_neg hc]
      exact List.Nodup.append h (List.nodup_singleton c) (by simp [hc])

lemma scanner_keep_iff (entry : DirEntry) (x : List Char) :
    (if entry.isFile then
        match matchCredential entry.name with
        | some base => if base ≠ TEMPLATE_NAME then some base else none
        | none => none
      else none) = some x
    ↔ entry.isFile = true ∧ matchCredential entry.name = some x ∧ x ≠ TEMPLATE_NAME := by
  cases hf : entry.isFile with
  | false => simp [hf]
  | true =>
    rw [if_pos rfl]
    simp only [true_and]
    cases hm : matchCredential entry.name with
    | none => simp
    | some base =>
      show (if base ≠ TEMPLATE_NAME then some base else none) = some x
          ↔ some base = some x ∧ x ≠ TEMPLATE_NAME
      by_cases hb : base = TEMPLATE_NAME
      · rw [if_neg (fun h => h hb)]
        constructor
        · intro hfalse; exact absurd hfalse (by simp)
        · rintro ⟨hsome, hne⟩
          injection hsome with hbase
          exact absurd (hbase ▸ hb) hne
      · rw [if_pos hb]
        constructor
        · intro hsome
          injection hsome with hbase
          exact ⟨by rw [hbase], fun hx => hb (hbase.trans hx)⟩
        · rintro ⟨hsome, _⟩; exact hsome

lemma mem_getExistingInstances (entries : List DirEntry) (x : List Char) :
    x ∈ getExistingInstances (some entries) ↔
      x ≠ TEMPLATE_NAME ∧ ∃ e ∈ entries, e.isFile = true ∧ matchCredential e.name = some x := by
  have hdef : getExistingInstances (some entries)
      = List.insertionSort lexLeP ((entries.filterMap fun entry =>
          if entry.isFile then
            match matchCredential entry.name with
            | some base => if base ≠ TEMPLATE_NAME then some base else none
            | none => none
          else none).foldl setInsert []) := rfl
  rw [hdef, (List.perm_insertionSort lexLeP _).mem_iff, mem_foldl_setInsert]
  simp only [List.not_mem_nil, false_or, List.mem_filterMap, scanner_keep_iff]
  constructor
  · rintro ⟨e, he, hfile, hmatch, hne⟩
    exact ⟨hne, e, he, hfile, hmatch⟩
  · rintro ⟨hne, e, he, hfile, hmatch⟩
    exact ⟨e, he, hfile, hmatch, hne⟩

lemma nodup_getExistingInstances (entries : List DirEntry) :
    (getExistingInstances (some entries)).Nodup := by
  have hdef : getExistingInstances (some entries)
      = List.insertionSort lexLeP ((entries.filterMap fun entry =>
          if entry.isFile then
            match matchCredential entry.name with
            | some base => if base ≠ TEMPLATE_NAME then some base else none
            | none => none
          else none).foldl setInsert []) := rfl
  rw [hdef, (List.perm_insertionSort lexLeP _).nodup_iff]
  exact nodup_foldl_setInsert _ [] List.nodup_nil

lemma matchCredential_name_eq (name x : List Char) (h : matchCredential name = some x) :
    name = x ++ credSuffix := by
  unfold matchCredential at h
  split at h
  · injection h with hx
    rename_i hcond
    obtain ⟨hlt, hdrop, hall⟩ := hcond
    calc name
        = name.take (name.length - credSuffix.length)
            ++ name.drop (name.length - credSuffix.length) :=
          (List.take_append_drop _ name).symm
      _ = x ++ credSuffix := by rw [hx, hdrop]
  · exact absurd h (by simp)

/-- C6: the scanner returns an empty result on an absent directory and
otherwise the deduplicated base names of the regular files matching the
external-credential pattern, template excluded, in ascending lexical order;
on the spec example it returns exactly bar, foo. -/
theorem getExistingInstances_characterization :
    getExistingInstances none = [] ∧
    (∀ entries : List DirEntry,
      (getExistingInstances (some entries)).Sorted lexLeP ∧
      (getExistingInstances (some entries)).Nodup ∧
      ∀ x, x ∈ getExistingInstances (some entries) ↔
        x ≠ TEMPLATE_NAME ∧
          ∃ e ∈ entries, e.isFile = true ∧ matchCredential e.name = some x) ∧
    getExistingInstances (some
      [⟨"foo.externalCredential-meta.xml".data, true⟩,
       ⟨"bar.externalCredential-meta.xml".data, true⟩,
       ⟨"template.externalCredential-meta.xml".data, true⟩])
      = ["bar".data, "foo".data] := by
  refine ⟨rfl, ?_, by decide⟩
  intro entries
  exact ⟨List.sorted_insertionSort lexLeP _, nodup_getExistingInstances entries,
    mem_getExistingInstances entries⟩

/-- C10: every name returned by the scanner differs from the template base
name and, through the external-credential rule's destination-name function,
reproduces the name of a regular file present in the scanned directory. -/
theorem scanner_roundtrip (entries : List DirEntry) (n : List Char)
    (h : n ∈ getExistingInstances (some entries)) :
    n ≠ TEMPLATE_NAME ∧
    ∃ e ∈ entries, e.isFile = true ∧ e.name = externalCredentialsRule.newName n := by
  obtain ⟨hne, e, he, hfile, hmatch⟩ := (mem_getExistingInstances entries n).mp h
  exact ⟨hne, e, he, hfile, matchCredential_name_eq _ _ hmatch⟩

theorem scanner_roundtrip_witness :
    "foo".data ≠ TEMPLATE_NAME ∧
    ∃ e ∈ [(⟨"foo.externalCredential-meta.xml".data, true⟩ : DirEntry)],
      e.isFile = true ∧ e.name = externalCredentialsRule.newName "foo".data :=
  scanner_roundtrip [⟨"foo.externalCredential-meta.xml".data, true⟩] "foo".data
    (by decide)

lemma joinPath_ne (F d₁ d₂ f₁ f₂ : List Char) (k : Nat)
    (h1 : k < d₁.length) (h2 : k < d₂.length) (hne : d₁[k]? ≠ d₂[k]?) :
    F ++ "/".data ++ (d₁ ++ "/".data ++ f₁) ≠ F ++ "/".data ++ (d₂ ++ "/".data ++ f₂) := by
  intro he
  have h3 : d₁ ++ "/".data ++ f₁ = d₂ ++ "/".data ++ f₂ := List.append_cancel_left he
  have e1 : (d₁ ++ "/".data ++ f₁)[k]? = d₁[k]? := by
    rw [List.append_assoc]
    exact List.getElem?_append_left h1
  have e2 : (d₂ ++ "/".data ++ f₂)[k]? = d₂[k]? := by
    rw [List.append_assoc]
    exact List.getElem?_append_left h2
  rw [h3, e2] at e1
  exact hne e1.symm

lemma destPath_shape (dirname : List Char) (rule : FileRule) (name : List Char) :
    destPath dirname rule name
      = FORCE_APP_DIR dirname ++ "/".data ++ (rule.dir ++ "/".data ++ rule.newName name) := rfl

lemma templatePath_shape (dirname : List Char) (rule : FileRule) :
    templatePath dirname rule
      = FORCE_APP_DIR dirname ++ "/".data ++ (rule.dir ++ "/".data ++ rule.oldName) := rfl

lemma dest_dest_ne (dirname name : List Char) (r s : FileRule) (k : Nat)
    (h1 : k < r.dir.length) (h2 : k < s.dir.length) (hne : r.dir[k]? ≠ s.dir[k]?) :
    destPath dirname r name ≠ destPath dirname s name := by
  rw [destPath_shape, destPath_shape]
  exact joinPath_ne _ _ _ _ _ k h1 h2 hne

lemma dest_tpl_ne (dirname name : List Char) (r s : FileRule) (k : Nat)
    (h1 : k < r.dir.length) (h2 : k < s.dir.length) (hne : r.dir[k]? ≠ s.dir[k]?) :
    destPath dirname r name ≠ templatePath dirname s := by
  rw [destPath_shape, templatePath_shape]
  exact joinPath_ne _ _ _ _ _ k h1 h2 hne

lemma FILES_paths_pairwise (dirname name : List Char) :
    List.Pairwise (fun r s => destPath dirname r name ≠ destPath dirname s name ∧
      destPath dirname r name ≠ templatePath dirname s) FILES := by
  refine List.Pairwise.cons ?_ (List.Pairwise.cons ?_ (List.Pairwise.cons ?_
    (List.Pairwise.cons ?_ List.Pairwise.nil)))
  · intro s hs
    simp only [List.mem_cons, List.not_mem_nil, or_false] at hs
    rcases hs with rfl | rfl | rfl
    · exact ⟨dest_dest_ne _ _ _ _ 8 (by decide) (by decide) (by decide),
        dest_tpl_ne _ _ _ _ 8 (by decide) (by decide) (by decide)⟩
    · exact ⟨dest_dest_ne _ _ _ _ 0 (by decide) (by decide) (by decide),
        dest_tpl_ne _ _ _ _ 0 (by decide) (by decide) (by decide)⟩
    · exact ⟨dest_dest_ne _ _ _ _ 0 (by decide) (by decide) (by decide),
        dest_tpl_ne _ _ _ _ 0 (by decide) (by decide) (by decide)⟩
  · intro s hs
    simp only [List.mem_cons, List.not_mem_nil, or_false] at hs
    rcases hs with rfl | rfl
    · exact ⟨dest_dest_ne _ _ _ _ 0 (by decide) (by decide) (by decide),
        dest_tpl_ne _ _ _ _ 0 (by decide) (by decide) (by decide)⟩
    · exact ⟨dest_dest_ne _ _ _ _ 0 (by decide) (by decide) (by decide),
        dest_tpl_ne _ _ _ _ 0 (by decide) (by decide) (by decide)⟩
  · intro s hs
    simp only [List.mem_cons, List.not_mem_nil, or_false] at hs
    rcases hs with rfl
    exact ⟨dest_dest_ne _ _ _ _ 0 (by decide) (by decide) (by decide),
      dest_tpl_ne _ _ _ _ 0 (by decide) (by decide) (by decide)⟩
  · intro s hs
    exact absurd hs (List.not_mem_nil s)

lemma renderFold_spec (dirname name : List Char) (repl : List (List Char × List Char)) :
    ∀ (rules : List FileRule) (fs : FS) (errs succ : List (List Char)),
      List.Pairwise (fun r s => destPath dirname r name ≠ destPath dirname s name ∧
        destPath dirname r name ≠ templatePath dirname s) rules →
      ((rules.foldl (renderStep dirname name repl) ⟨fs, errs, succ⟩).errors
          = errs ++ (rules.filter fun r =>
              (lookupFirst fs (templatePath dirname r)).isNone).map FileRule.oldName) ∧
      ((rules.foldl (renderStep dirname name repl) ⟨fs, errs, succ⟩).successes
          = succ ++ (rules.filter fun r =>
              (lookupFirst fs (templatePath dirname r)).isSome).map fun r => r.newName name) ∧
      (∀ p, (∀ r ∈ rules, p ≠ destPath dirname r name) →
        lookupFirst (rules.foldl (renderStep dirname name repl) ⟨fs, errs, succ⟩).fs p
          = lookupFirst fs p) ∧
      (∀ r ∈ rules, ∀ content, lookupFirst fs (templatePath dirname r) = some content →
        lookupFirst (rules.foldl (renderStep dirname name repl) ⟨fs, errs, succ⟩).fs
            (destPath dirname r name)
          = some (applyReplacements content repl)) := by
  intro rules
  induction rules with
  | nil =>
    intro fs errs succ hpw
    refine ⟨by simp, by simp, fun p hp => rfl, fun r hr => absurd hr (List.not_mem_nil r)⟩
  | cons r rs ih =>
    intro fs errs succ hpw
    rw [List.pairwise_cons] at hpw
    obtain ⟨hhead, htail⟩ := hpw
    have hfold : (r :: rs).foldl (renderStep dirname name repl) ⟨fs, errs, succ⟩
        = rs.foldl (renderStep dirname name repl)
            (renderStep dirname name repl ⟨fs, errs, succ⟩ r) := rfl
    cases hread : lookupFirst fs (templatePath dirname r) with
    | none =>
      have hstep : renderStep dirname name repl ⟨fs, errs, succ⟩ r
          = ⟨fs, errs ++ [r.oldName], succ⟩ := by
        simp [renderStep, copyFromTemplate, hread]
      obtain ⟨ihe, ihs, ihf, ihd⟩ := ih fs (errs ++ [r.oldName]) succ htail
      rw [hfold, hstep]
      refine ⟨?_, ?_, ?_, ?_⟩
      · rw [ihe, List.filter_cons_of_pos (by rw [hread]; rfl), List.map_cons]
        simp
      · rw [ihs, List.filter_cons_of_neg (by rw [hread]; simp)]
      · intro p hp
        exact ihf p fun s hs => hp s (List.mem_cons_of_mem _ hs)
      · intro s hs content hc
        rcases List.mem_cons.mp hs with rfl | hs'
        · rw [hread] at hc
          exact absurd hc (by simp)
        · exact ihd s hs' content hc
    | some content0 =>
      have hstep : renderStep dirname name repl ⟨fs, errs, succ⟩ r
          = ⟨(destPath dirname r name, applyReplacements content0 repl) :: fs,
             errs, succ ++ [r.newName name]⟩ := by
        simp [renderStep, copyFromTemplate, hread]
      have hreads : ∀ s ∈ rs,
          lookupFirst ((destPath dirname r name, applyReplacements content0 repl) :: fs)
              (templatePath dirname s)
            = lookupFirst fs (templatePath dirname s) := by
        intro s hs
        have hne := (hhead s hs).2
        simp only [lookupFirst]
        rw [if_neg fun h => hne h.symm]
      obtain ⟨ihe, ihs, ihf, ihd⟩ :=
        ih ((destPath dirname r name, applyReplacements content0 repl) :: fs)
          errs (succ ++ [r.newName name]) htail
      rw [hfold, hstep]
      refine ⟨?_, ?_, ?_, ?_⟩
      · rw [ihe, List.filter_cons_of_neg (by rw [hread]; simp)]
        congr 1
        exact congrArg (List.map FileRule.oldName)
          (List.filter_congr fun s hs => by rw [hreads s hs])
      · rw [ihs, List.filter_cons_of_pos (by rw [hread]; rfl), List.map_cons,
          List.filter_congr fun s hs => by rw [hreads s hs]]
        simp
      · intro p hp
        rw [ihf p fun s hs => hp s (List.mem_cons_of_mem _ hs)]
        simp only [lookupFirst]
        rw [if_neg (hp r (List.mem_cons_self _ _))]
      · intro s hs content hc
        rcases List.mem_cons.mp hs with rfl | hs'
        · rw [hread] at hc
          injection hc with hc0
          subst hc0
          rw [ihf (destPath dirname s name) fun t ht => (hhead t ht).1]
          simp [lookupFirst]
        · exact ihd s hs' content (by rw [hreads s hs']; exact hc)

lemma runSetup_proceed (dirname : List Char) (fs : FS) (values : CollectedValues)
    (confirmAnswer overwriteAnswer : List Char)
    (hc : jsToLowerCase confirmAnswer = "y".data)
    (ho : jsToLowerCase overwriteAnswer = "y".data) :
    runSetup dirname fs values confirmAnswer overwriteAnswer
      = ⟨(renderAll dirname fs (buildReplacements values) values.MCP_NAME).fs, 0, false,
         instanceExists dirname fs values.MCP_NAME,
         (renderAll dirname fs (buildReplacements values) values.MCP_NAME).errors,
         (renderAll dirname fs (buildReplacements values) values.MCP_NAME).successes, true⟩ := by
  unfold runSetup
  rw [if_neg fun h => h hc]
  cases hie : instanceExists dirname fs values.MCP_NAME
  · simp
  · rw [if_pos rfl, if_neg fun h => h ho]

/-- C7: any review-confirmation answer other than an exact case-insensitive
`y` cancels the run: exit status 0, cancellation flagged, no rule processed,
and the filesystem unchanged. -/
theorem cancellation_no_changes (dirname : List Char) (fs : FS) (values : CollectedValues)
    (confirmAnswer overwriteAnswer : List Char)
    (h : jsToLowerCase confirmAnswer ≠ "y".data) :
    runSetup dirname fs values confirmAnswer overwriteAnswer
      = ⟨fs, 0, true, false, [], [], false⟩ := by
  unfold runSetup
  rw [if_pos h]

theorem cancellation_no_changes_witness :
    jsToLowerCase "n".data ≠ "y".data ∧
    runSetup "d".data [("p".data, "c".data)] ⟨"a".data, "b".data, "c".data, []⟩
        "n".data "y".data
      = ⟨[("p".data, "c".data)], 0, true, false, [], [], false⟩ :=
  ⟨by decide, cancellation_no_changes _ _ _ _ _ (by decide)⟩

/-- C8: once the review is confirmed, the overwrite confirmation is asked
exactly when one of the four destination files for the chosen name exists,
the check ranging over all four rule directories; declining it cancels with
exit status 0 and the filesystem unchanged. -/
theorem overwrite_guard (dirname : List Char) (fs : FS) (values : CollectedValues)
    (confirmAnswer overwriteAnswer : List Char)
    (hc : jsToLowerCase confirmAnswer = "y".data) :
    ((runSetup dirname fs values confirmAnswer overwriteAnswer).askedOverwrite = true ↔
      ∃ r ∈ FILES, (lookupFirst fs (destPath dirname r values.MCP_NAME)).isSome = true) ∧
    (instanceExists dirname fs values.MCP_NAME = true →
      jsToLowerCase overwriteAnswer ≠ "y".data →
      runSetup dirname fs values confirmAnswer overwriteAnswer
        = ⟨fs, 0, true, true, [], [], false⟩) := by
  constructor
  · have hask : (runSetup dirname fs values confirmAnswer overwriteAnswer).askedOverwrite
        = instanceExists dirname fs values.MCP_NAME := by
      unfold runSetup
      rw [if_neg fun h => h hc]
      cases hie : instanceExists dirname fs values.MCP_NAME
      · simp
      · by_cases hov : jsToLowerCase overwriteAnswer ≠ "y".data
        · rw [if_pos rfl, if_pos hov]
        · rw [if_pos rfl, if_neg hov]
    rw [hask]
    unfold instanceExists
    exact List.any_eq_true
  · intro hie hov
    unfold runSetup
    rw [if_neg fun h => h hc, if_pos hie, if_pos hov]

theorem overwrite_guard_witness :
    (runSetup "d".data [(destPath "d".data permissionSetsRule "n".data, "c".data)]
        ⟨"n".data, "u".data, "v".data, []⟩ "Y".data "q".data).askedOverwrite = true ∧
    runSetup "d".data [(destPath "d".data permissionSetsRule "n".data, "c".data)]
        ⟨"n".data, "u".data, "v".data, []⟩ "Y".data "q".data
      = ⟨[(destPath "d".data permissionSetsRule "n".data, "c".data)], 0, true, true,
         [], [], false⟩ := by
  have h := overwrite_guard "d".data
    [(destPath "d".data permissionSetsRule "n".data, "c".data)]
    ⟨"n".data, "u".data, "v".data, []⟩ "Y".data "q".data (by decide)
  exact ⟨h.1.mpr ⟨permissionSetsRule, by simp [FILES], by decide⟩,
    h.2 (by decide) (by decide)⟩

/-- C9: with both confirmations given, each rule whose template is missing
is reported as an error and skipped while the remaining rules still run,
each rule whose template exists has its destination written from the
template with the replacements applied and is reported as a success, and the
run reaches completion with exit code 0. -/
theorem missing_template_rule_level (dirname : List Char) (fs : FS) (values : CollectedValues)
    (confirmAnswer overwriteAnswer : List Char)
    (hc : jsToLowerCase confirmAnswer = "y".data)
    (ho : jsToLowerCase overwriteAnswer = "y".data) :
    (runSetup dirname fs values confirmAnswer overwriteAnswer).completed = true ∧
    (runSetup dirname fs values confirmAnswer overwriteAnswer).exitCode = 0 ∧
    (runSetup dirname fs values confirmAnswer overwriteAnswer).ruleErrors
      = (FILES.filter fun r =>
          (lookupFirst fs (templatePath dirname r)).isNone).map FileRule.oldName ∧
    (runSetup dirname fs values confirmAnswer overwriteAnswer).ruleSuccesses
      = ((FILES.filter fun r =>
          (lookupFirst fs (templatePath dirname r)).isSome).map
            fun r => r.newName values.MCP_NAME) ∧
    ∀ r ∈ FILES, ∀ content, lookupFirst fs (templatePath dirname r) = some content →
      lookupFirst (runSetup dirname fs values confirmAnswer overwriteAnswer).fs
          (destPath dirname r values.MCP_NAME)
        = some (applyReplacements content (buildReplacements values)) := by
  have hrun := runSetup_proceed dirname fs values confirmAnswer overwriteAnswer hc ho
  obtain ⟨he, hsucc, hf, hd⟩ := renderFold_spec dirname values.MCP_NAME
    (buildReplacements values) FILES fs [] []
    (FILES_paths_pairwise dirname values.MCP_NAME)
  rw [hrun]
  refine ⟨rfl, rfl, ?_, ?_, ?_⟩
  · show (FILES.foldl (renderStep dirname values.MCP_NAME (buildReplacements values))
        ⟨fs, [], []⟩).errors = _
    rw [he]
    simp
  · show (FILES.foldl (renderStep dirname values.MCP_NAME (buildReplacements values))
        ⟨fs, [], []⟩).successes = _
    rw [hsucc]
    simp
  · intro r hr content hcont
    show lookupFirst (FILES.foldl (renderStep dirname values.MCP_NAME (buildReplacements values))
        ⟨fs, [], []⟩).fs (destPath dirname r values.MCP_NAME) = _
    exact hd r hr content hcont

theorem missing_template_rule_level_witness :
    (runSetup "d".data
        [(templatePath "d".data externalCredentialsRule, "A".data),
         (templatePath "d".data namedCredentialsRule, "B".data)]
        ⟨"n".data, "u".data, "v".data, []⟩ "y".data "y".data).completed = true ∧
    (runSetup "d".data
        [(templatePath "d".data externalCredentialsRule, "A".data),
         (templatePath "d".data namedCredentialsRule, "B".data)]
        ⟨"n".data, "u".data, "v".data, []⟩ "y".data "y".data).ruleErrors
      = ["template.externalServiceRegistration-meta.xml".data,
         "template_Perm_Set.permissionset-meta.xml".data] ∧
    (runSetup "d".data
        [(templatePath "d".data externalCredentialsRule, "A".data),
         (templatePath "d".data namedCredentialsRule, "B".data)]
        ⟨"n".data, "u".data, "v".data, []⟩ "y".data "y".data).ruleSuccesses
      = ["n.externalCredential-meta.xml".data,
         "n.namedCredential-meta.xml".data] := by
  have h := missing_template_rule_level "d".data
    [(templatePath "d".data externalCredentialsRule, "A".data),
     (templatePath "d".data namedCredentialsRule, "B".data)]
    ⟨"n".data, "u".data, "v".data, []⟩ "y".data "y".data (by decide) (by decide)
  refine ⟨h.1, ?_, ?_⟩
  · rw [h.2.2.1]
    decide
  · rw [h.2.2.2.1]
    decide

/-- C3: the code violates the never-mutated template guarantee at the
validated instance name `template`: every destination path then equals the
rule's template path, and a completed run overwrites the template file, so
its content differs before and after the render. -/
theorem template_mutated_on_template_name :
    mcpNameVar.validate "template".data = true ∧
    destPath "d".data externalCredentialsRule "template".data
      = templatePath "d".data externalCredentialsRule ∧
    lookupFirst [(templatePath "d".data externalCredentialsRule, "n=MCP_NAME".data)]
        (templatePath "d".data externalCredentialsRule) = some "n=MCP_NAME".data ∧
    lookupFirst
        (runSetup "d".data
          [(templatePath "d".data externalCredentialsRule, "n=MCP_NAME".data)]
          ⟨"template".data, "https://s".data, "https://a".data, []⟩
          "y".data "y".data).fs
        (templatePath "d".data externalCredentialsRule) = some "n=template".data := by
  exact ⟨by decide, by decide, by decide, by decide⟩
